import Mathlib

/-!
Verification of the `enaa` bytecode virtual machine and its assembler.

The development shallowly embeds the three Rust source files:
* `vm.rs`: the opcode set, decoding of opcode bytes, and the
  fetch-decode-execute interpreter loop (`Vm::run`);
* `asm.rs`: symbolic instructions and the two-pass assembler (`assemble`);
* `main.rs`: the hard-coded example program `DECRYPTER`.

Machine integers (`u32`, `u8`, `usize`) are modelled as `Nat` with explicit
reduction modulo `2^32` (resp. `2^8`) exactly where the Rust code wraps or
truncates.  Characters are modelled by their Unicode code points as `Nat`.
Fallible Rust code (`anyhow::Result`) is modelled with explicit error
results; a Rust panic (out-of-bounds indexing, the `todo!()` arm) is
modelled by its own error constructor so that it stays distinguishable
from an ordinary `anyhow` error.
-/

namespace Enaa

/-- The opcode enumeration of `vm.rs` (`enum Opcode`, `#[repr(u8)]`). -/
inductive Opcode where
  | In
  | Out
  | Dup
  | Add
  | Sub
  | Bne
  | Blt
  | Exit
  | Push
  | Jmp
  | Beq
  | Pusha
  | Popa
  | Bgt
  | Ble
  deriving DecidableEq, Repr

/-- The `#[repr(u8)]` discriminant of each opcode (`Opcode as u8`). -/
def opToByte : Opcode → Nat
  | .In => 0
  | .Out => 1
  | .Dup => 2
  | .Add => 3
  | .Sub => 4
  | .Bne => 5
  | .Blt => 6
  | .Exit => 7
  | .Push => 8
  | .Jmp => 9
  | .Beq => 10
  | .Pusha => 11
  | .Popa => 12
  | .Bgt => 13
  | .Ble => 14

/-- `impl TryFrom<u8> for Opcode`: decode an opcode byte, failing (with
`None`, standing for the `anyhow` error) outside the range `0..=14`. -/
def decodeOp : Nat → Option Opcode
  | 0 => some .In
  | 1 => some .Out
  | 2 => some .Dup
  | 3 => some .Add
  | 4 => some .Sub
  | 5 => some .Bne
  | 6 => some .Blt
  | 7 => some .Exit
  | 8 => some .Push
  | 9 => some .Jmp
  | 10 => some .Beq
  | 11 => some .Pusha
  | 12 => some .Popa
  | 13 => some .Bgt
  | 14 => some .Ble
  | _ => none

/-- The ways a run can stop abnormally.  The first three are the `anyhow`
errors of `vm.rs`; the last two are Rust panics (slice indexing out of
bounds, and the `todo!()` reached by the missing `Beq` arm of the
interpreter's `match`). -/
inductive VmError where
  | invalidOpcode (b : Nat)
  | underflow
  | badCodePoint
  | fetchOOB
  | todoUnimplemented
  deriving DecidableEq, Repr

/-- `struct Vm`: program, remaining input characters (code points), output
so far (code points), program counter, data stack (head = top, values are
`u32` modelled as `Nat < 2^32`), auxiliary register. -/
structure VmState where
  program : List Nat
  inputRest : List Nat
  output : List Nat
  pc : Nat
  stack : List Nat
  aux : Nat
  deriving DecidableEq, Repr

/-- Result of executing one instruction. -/
inductive StepResult where
  | halted (s : VmState)
  | next (s : VmState)
  | error (e : VmError)
  deriving DecidableEq, Repr

/-- `char::from_u32` succeeds exactly on Unicode scalar values:
below `0x110000` and not a surrogate (`0xD800..=0xDFFF`). -/
def isScalar (n : Nat) : Bool :=
  decide (n < 0xD800) || (decide (0xDFFF < n) && decide (n < 0x110000))

/-- `u32` addition (release-mode wrapping semantics, with the wrap made
explicit as a modulus). -/
def add32 (a b : Nat) : Nat := (a + b) % 4294967296

/-- `u32` subtraction (wrapping); for `a b < 2^32` this is the two's
complement difference. -/
def sub32 (a b : Nat) : Nat := (a + 4294967296 - b) % 4294967296

/-- `Vm::branch_if`: pop `rhs` then `lhs`; if `cmp lhs rhs` jump to the
operand byte, else fall through past it (`pc + 2`). -/
def branchIf (s : VmState) (cmp : Nat → Nat → Bool) : StepResult :=
  match s.stack with
  | rhs :: lhs :: st =>
    if cmp lhs rhs then
      match s.program.get? (s.pc + 1) with
      | some t => .next { s with stack := st, pc := t }
      | none => .error .fetchOOB
    else .next { s with stack := st, pc := s.pc + 2 }
  | _ => .error .underflow

/-- One iteration of the `loop` in `Vm::run`: fetch the byte at `pc`,
decode it, and execute it.  The `Beq` arm reproduces the source's
`_ => todo!()`. -/
def step (s : VmState) : StepResult :=
  match s.program.get? s.pc with
  | none => .error .fetchOOB
  | some b =>
    match decodeOp b with
    | none => .error (.invalidOpcode b)
    | some op =>
      match op with
      | .Exit => .halted s
      | .In =>
        match s.inputRest with
        | [] => .next { s with stack := 0 :: s.stack, pc := s.pc + 1 }
        | c :: rest =>
          .next { s with inputRest := rest, stack := c :: s.stack, pc := s.pc + 1 }
      | .Out =>
        match s.stack with
        | [] => .error .underflow
        | x :: st =>
          if isScalar x then
            .next { s with stack := st, output := s.output ++ [x], pc := s.pc + 1 }
          else .error .badCodePoint
      | .Jmp =>
        match s.program.get? (s.pc + 1) with
        | some t => .next { s with pc := t }
        | none => .error .fetchOOB
      | .Dup =>
        match s.stack with
        | [] => .error .underflow
        | x :: st => .next { s with stack := x :: x :: st, pc := s.pc + 1 }
      | .Bne =>
        match s.stack with
        | [] => .error .underflow
        | x :: st =>
          if x ≠ 0 then
            match s.program.get? (s.pc + 1) with
            | some t => .next { s with stack := st, pc := t }
            | none => .error .fetchOOB
          else .next { s with stack := st, pc := s.pc + 2 }
      | .Bgt => branchIf s (fun l r => decide (l > r))
      | .Blt => branchIf s (fun l r => decide (l < r))
      | .Ble => branchIf s (fun l r => decide (l ≤ r))
      | .Pusha => .next { s with stack := s.aux :: s.stack, pc := s.pc + 1 }
      | .Push =>
        match s.program.get? (s.pc + 1) with
        | some v => .next { s with stack := v :: s.stack, pc := s.pc + 2 }
        | none => .error .fetchOOB
      | .Popa =>
        match s.stack with
        | [] => .error .underflow
        | x :: st => .next { s with aux := x, stack := st, pc := s.pc + 1 }
      | .Add =>
        match s.stack with
        | rhs :: lhs :: st => .next { s with stack := add32 lhs rhs :: st, pc := s.pc + 1 }
        | _ => .error .underflow
      | .Sub =>
        match s.stack with
        | rhs :: lhs :: st => .next { s with stack := sub32 lhs rhs :: st, pc := s.pc + 1 }
        | _ => .error .underflow
      | .Beq => .error .todoUnimplemented

/-- Outcome of a bounded run. -/
inductive RunResult where
  | ok (output : List Nat)
  | err (e : VmError)
  | timeout
  deriving DecidableEq, Repr

/-- Iterate `step` with explicit fuel (`Vm::run` loops until `Exit` or an
error; fuel makes the loop total without changing any terminating
behaviour). -/
def runLoop (fuel : Nat) (s : VmState) : RunResult :=
  match fuel with
  | 0 => .timeout
  | n + 1 =>
    match step s with
    | .halted t => .ok t.output
    | .error e => .err e
    | .next t => runLoop n t

/-- `pub fn run(program, input)`: start from `Vm::new` (pc 0, empty stack,
aux 0, empty output) and interpret. -/
def run (program input : List Nat) (fuel : Nat) : RunResult :=
  runLoop fuel ⟨program, input, [], 0, [], 0⟩

theorem runLoop_succ (n : Nat) (s : VmState) :
    runLoop (n + 1) s =
      match step s with
      | .halted t => .ok t.output
      | .error e => .err e
      | .next t => runLoop n t := rfl

theorem runLoop_next {s t : VmState} (h : step s = .next t) (n : Nat) :
    runLoop (n + 1) s = runLoop n t := by
  rw [runLoop_succ, h]

theorem runLoop_halt {s t : VmState} (h : step s = .halted t) (n : Nat) :
    runLoop (n + 1) s = .ok t.output := by
  rw [runLoop_succ, h]

theorem runLoop_err {s : VmState} {e : VmError} (h : step s = .error e) (n : Nat) :
    runLoop (n + 1) s = .err e := by
  rw [runLoop_succ, h]

/-- `t` is reachable from `s`, stated so that successful terminating runs
transfer backwards along the execution. -/
def Reaches (s t : VmState) : Prop :=
  ∀ o : List Nat, (∃ n, runLoop n t = .ok o) → ∃ n, runLoop n s = .ok o

theorem reaches_refl (s : VmState) : Reaches s s := fun _ h => h

theorem reaches_step {s t : VmState} (h : step s = .next t) : Reaches s t := by
  intro o ho
  obtain ⟨n, hn⟩ := ho
  exact ⟨n + 1, by rw [runLoop_next h]; exact hn⟩

theorem reaches_trans {s t u : VmState} (h1 : Reaches s t) (h2 : Reaches t u) :
    Reaches s u := fun o ho => h1 o (h2 o ho)

instance : Trans Reaches Reaches Reaches := ⟨reaches_trans⟩

/-! ## The assembler (`asm.rs`) -/

/-- `enum Operand`. -/
inductive Operand where
  | none
  | target (label : String)
  | value (v : Nat)
  deriving DecidableEq, Repr

/-- `struct Insn`: optional label, opcode, operand. -/
structure Insn where
  label : Option String
  opcode : Opcode
  operand : Operand
  deriving DecidableEq, Repr

/-- `Insn::new`. -/
def Insn.new (op : Opcode) : Insn := ⟨none, op, .none⟩

/-- `Insn::set_label`. -/
def Insn.set_label (i : Insn) (l : String) : Insn := ⟨some l, i.opcode, i.operand⟩

/-- `Insn::set_value`. -/
def Insn.set_value (i : Insn) (v : Nat) : Insn := ⟨i.label, i.opcode, .value v⟩

/-- `Insn::set_target`. -/
def Insn.set_target (i : Insn) (l : String) : Insn := ⟨i.label, i.opcode, .target l⟩

/-- Encoded size of one instruction: 1 byte for the opcode plus 1 byte when
it carries an operand. -/
def insnSize (i : Insn) : Nat :=
  match i.operand with
  | .none => 1
  | _ => 2

/-- The assembler's accumulated state during its emission pass: the label
offset table (`HashMap`, modelled as an association list whose most recent
insertion shadows older ones), the pending relocations, and the bytes
emitted so far. -/
structure AsmState where
  labels : List (String × Nat)
  relocs : List (String × Nat)
  code : List Nat
  deriving DecidableEq, Repr

/-- `HashMap::get` over the insertion list: the most recently inserted
binding for the name wins, exactly as overwriting insertion does. -/
def lookupLabel (ls : List (String × Nat)) (l : String) : Option Nat :=
  (ls.find? (fun p => p.1 == l)).map (fun p => p.2)

/-- The body of `assemble`'s `for insn in source` loop: record the label
(if any) at the current length, emit the opcode byte, then emit the operand
byte — a placeholder `0` plus a relocation for a target, the truncated
(`as u8`) value for an immediate. -/
def emitInsn (st : AsmState) (i : Insn) : AsmState :=
  let labels :=
    match i.label with
    | some l => (l, st.code.length) :: st.labels
    | none => st.labels
  match i.operand with
  | .none => ⟨labels, st.relocs, st.code ++ [opToByte i.opcode]⟩
  | .target l =>
      ⟨labels, st.relocs ++ [(l, st.code.length + 1)],
        st.code ++ [opToByte i.opcode, 0]⟩
  | .value v => ⟨labels, st.relocs, st.code ++ [opToByte i.opcode, v % 256]⟩

/-- `assemble`'s relocation loop: for each pending `(label, offset)` look
the label up (a missing label is a fatal error) and overwrite the byte at
`offset` with the resolved offset truncated `as u8`. -/
def resolve (labels : List (String × Nat)) :
    List (String × Nat) → List Nat → Option (List Nat)
  | [], code => some code
  | (l, off) :: rest, code =>
    match lookupLabel labels l with
    | none => none
    | some tgt => resolve labels rest (code.set off (tgt % 256))

/-- `pub fn assemble`: the emission pass followed by the relocation pass. -/
def assemble (source : List Insn) : Option (List Nat) :=
  let st := source.foldl emitInsn ⟨[], [], []⟩
  resolve st.labels st.relocs st.code

/-- Labels a program defines (`insn.label`), in order. -/
def definedLabels (source : List Insn) : List String :=
  source.filterMap (fun i => i.label)

/-- Labels a program references as branch/jump targets, in order. -/
def referencedLabels (source : List Insn) : List String :=
  source.filterMap (fun i =>
    match i.operand with
    | .target l => some l
    | _ => Option.none)

/-! ## The example program (`main.rs`) -/

/-- `const DECRYPTER`: the hard-coded example program. -/
def DECRYPTER : List Insn :=
  [ (Insn.new .Push).set_value 4,
    Insn.new .Popa,
    (Insn.new .In).set_label "loop",
    Insn.new .Dup,
    (Insn.new .Bne).set_target "decode",
    Insn.new .Exit,
    (Insn.new .Pusha).set_label "decode",
    Insn.new .Add,
    Insn.new .Dup,
    (Insn.new .Push).set_value 122,
    (Insn.new .Ble).set_target "out",
    (Insn.new .Push).set_value 26,
    Insn.new .Sub,
    (Insn.new .Out).set_label "out",
    Insn.new .Pusha,
    (Insn.new .Push).set_value 1,
    Insn.new .Add,
    Insn.new .Dup,
    (Insn.new .Push).set_value 25,
    (Insn.new .Bgt).set_target "wrap",
    Insn.new .Popa,
    (Insn.new .Jmp).set_target "loop",
    ((Insn.new .Push).set_value 0).set_label "wrap",
    Insn.new .Popa,
    (Insn.new .Jmp).set_target "loop" ]

/-- The bytecode `assemble DECRYPTER` produces. -/
def decrypterBytes : List Nat :=
  [8, 4, 12, 0, 2, 5, 8, 7, 11, 3, 2, 8, 122, 14, 18, 8, 26, 4,
   1, 11, 8, 1, 3, 2, 8, 25, 13, 31, 12, 9, 3, 8, 0, 12, 9, 3]

theorem assemble_DECRYPTER : assemble DECRYPTER = some decrypterBytes := by
  decide

/-! ## Single-step characterisations of every opcode

Each lemma fixes the fetched opcode byte through `p.get? pc = some k` and
describes the exact state transformation `Vm::run`'s corresponding arm
performs. -/

theorem step_invalid {p : List Nat} {pc b : Nat} {inp out stk : List Nat} {aux : Nat}
    (hb : p.get? pc = some b) (hbad : decodeOp b = none) :
    step ⟨p, inp, out, pc, stk, aux⟩ = .error (.invalidOpcode b) := by
  simp only [step, hb, hbad]

theorem step_exit {p : List Nat} {pc : Nat} {inp out stk : List Nat} {aux : Nat}
    (hb : p.get? pc = some 7) :
    step ⟨p, inp, out, pc, stk, aux⟩ = .halted ⟨p, inp, out, pc, stk, aux⟩ := by
  simp only [step, hb, decodeOp]

theorem step_in_nil {p : List Nat} {pc : Nat} {out stk : List Nat} {aux : Nat}
    (hb : p.get? pc = some 0) :
    step ⟨p, [], out, pc, stk, aux⟩ = .next ⟨p, [], out, pc + 1, 0 :: stk, aux⟩ := by
  simp only [step, hb, decodeOp]

theorem step_in_cons {p : List Nat} {pc c : Nat} {rest out stk : List Nat} {aux : Nat}
    (hb : p.get? pc = some 0) :
    step ⟨p, c :: rest, out, pc, stk, aux⟩ =
      .next ⟨p, rest, out, pc + 1, c :: stk, aux⟩ := by
  simp only [step, hb, decodeOp]

theorem step_out_ok {p : List Nat} {pc x : Nat} {inp out stk : List Nat} {aux : Nat}
    (hb : p.get? pc = some 1) (hx : isScalar x = true) :
    step ⟨p, inp, out, pc, x :: stk, aux⟩ =
      .next ⟨p, inp, out ++ [x], pc + 1, stk, aux⟩ := by
  simp only [step, hb, decodeOp, hx, if_true]

theorem step_out_bad {p : List Nat} {pc x : Nat} {inp out stk : List Nat} {aux : Nat}
    (hb : p.get? pc = some 1) (hx : isScalar x = false) :
    step ⟨p, inp, out, pc, x :: stk, aux⟩ = .error .badCodePoint := by
  simp only [step, hb, decodeOp, hx, Bool.false_eq_true, if_false]

theorem step_out_nil {p : List Nat} {pc : Nat} {inp out : List Nat} {aux : Nat}
    (hb : p.get? pc = some 1) :
    step ⟨p, inp, out, pc, [], aux⟩ = .error .underflow := by
  simp only [step, hb, decodeOp]

theorem step_dup {p : List Nat} {pc x : Nat} {inp out stk : List Nat} {aux : Nat}
    (hb : p.get? pc = some 2) :
    step ⟨p, inp, out, pc, x :: stk, aux⟩ =
      .next ⟨p, inp, out, pc + 1, x :: x :: stk, aux⟩ := by
  simp only [step, hb, decodeOp]

theorem step_dup_nil {p : List Nat} {pc : Nat} {inp out : List Nat} {aux : Nat}
    (hb : p.get? pc = some 2) :
    step ⟨p, inp, out, pc, [], aux⟩ = .error .underflow := by
  simp only [step, hb, decodeOp]

theorem step_add {p : List Nat} {pc a b : Nat} {inp out stk : List Nat} {aux : Nat}
    (hb : p.get? pc = some 3) :
    step ⟨p, inp, out, pc, b :: a :: stk, aux⟩ =
      .next ⟨p, inp, out, pc + 1, add32 a b :: stk, aux⟩ := by
  simp only [step, hb, decodeOp]

theorem step_add_nil {p : List Nat} {pc : Nat} {inp out : List Nat} {aux : Nat}
    (hb : p.get? pc = some 3) :
    step ⟨p, inp, out, pc, [], aux⟩ = .error .underflow := by
  simp only [step, hb, decodeOp]

theorem step_add_one {p : List Nat} {pc x : Nat} {inp out : List Nat} {aux : Nat}
    (hb : p.get? pc = some 3) :
    step ⟨p, inp, out, pc, [x], aux⟩ = .error .underflow := by
  simp only [step, hb, decodeOp]

theorem step_sub {p : List Nat} {pc a b : Nat} {inp out stk : List Nat} {aux : Nat}
    (hb : p.get? pc = some 4) :
    step ⟨p, inp, out, pc, b :: a :: stk, aux⟩ =
      .next ⟨p, inp, out, pc + 1, sub32 a b :: stk, aux⟩ := by
  simp only [step, hb, decodeOp]

theorem step_sub_nil {p : List Nat} {pc : Nat} {inp out : List Nat} {aux : Nat}
    (hb : p.get? pc = some 4) :
    step ⟨p, inp, out, pc, [], aux⟩ = .error .underflow := by
  simp only [step, hb, decodeOp]

theorem step_sub_one {p : List Nat} {pc x : Nat} {inp out : List Nat} {aux : Nat}
    (hb : p.get? pc = some 4) :
    step ⟨p, inp, out, pc, [x], aux⟩ = .error .underflow := by
  simp only [step, hb, decodeOp]

theorem step_bne_taken {p : List Nat} {pc x t : Nat} {inp out stk : List Nat} {aux : Nat}
    (hb : p.get? pc = some 5) (ht : p.get? (pc + 1) = some t) (hx : x ≠ 0) :
    step ⟨p, inp, out, pc, x :: stk, aux⟩ = .next ⟨p, inp, out, t, stk, aux⟩ := by
  simp only [step, hb, decodeOp, ht, hx, ne_eq, not_false_eq_true, if_true]

theorem step_bne_fall {p : List Nat} {pc : Nat} {inp out stk : List Nat} {aux : Nat}
    (hb : p.get? pc = some 5) :
    step ⟨p, inp, out, pc, 0 :: stk, aux⟩ =
      .next ⟨p, inp, out, pc + 2, stk, aux⟩ := by
  simp only [step, hb, decodeOp, ne_eq, not_true_eq_false, if_false]

theorem step_bne_nil {p : List Nat} {pc : Nat} {inp out : List Nat} {aux : Nat}
    (hb : p.get? pc = some 5) :
    step ⟨p, inp, out, pc, [], aux⟩ = .error .underflow := by
  simp only [step, hb, decodeOp]

theorem step_blt_taken {p : List Nat} {pc x y t : Nat} {inp out stk : List Nat} {aux : Nat}
    (hb : p.get? pc = some 6) (ht : p.get? (pc + 1) = some t) (hcmp : x < y) :
    step ⟨p, inp, out, pc, y :: x :: stk, aux⟩ = .next ⟨p, inp, out, t, stk, aux⟩ := by
  simp only [step, hb, decodeOp, branchIf, ht, decide_eq_true_eq, hcmp, if_true]

theorem step_blt_fall {p : List Nat} {pc x y : Nat} {inp out stk : List Nat} {aux : Nat}
    (hb : p.get? pc = some 6) (hcmp : ¬ x < y) :
    step ⟨p, inp, out, pc, y :: x :: stk, aux⟩ =
      .next ⟨p, inp, out, pc + 2, stk, aux⟩ := by
  simp only [step, hb, decodeOp, branchIf, decide_eq_true_eq, hcmp, if_false]

theorem step_bgt_taken {p : List Nat} {pc x y t : Nat} {inp out stk : List Nat} {aux : Nat}
    (hb : p.get? pc = some 13) (ht : p.get? (pc + 1) = some t) (hcmp : x > y) :
    step ⟨p, inp, out, pc, y :: x :: stk, aux⟩ = .next ⟨p, inp, out, t, stk, aux⟩ := by
  simp only [step, hb, decodeOp, branchIf, ht, decide_eq_true_eq, hcmp, if_true]

theorem step_bgt_fall {p : List Nat} {pc x y : Nat} {inp out stk : List Nat} {aux : Nat}
    (hb : p.get? pc = some 13) (hcmp : ¬ x > y) :
    step ⟨p, inp, out, pc, y :: x :: stk, aux⟩ =
      .next ⟨p, inp, out, pc + 2, stk, aux⟩ := by
  simp only [step, hb, decodeOp, branchIf, decide_eq_true_eq, hcmp, if_false]

theorem step_ble_taken {p : List Nat} {pc x y t : Nat} {inp out stk : List Nat} {aux : Nat}
    (hb : p.get? pc = some 14) (ht : p.get? (pc + 1) = some t) (hcmp : x ≤ y) :
    step ⟨p, inp, out, pc, y :: x :: stk, aux⟩ = .next ⟨p, inp, out, t, stk, aux⟩ := by
  simp only [step, hb, decodeOp, branchIf, ht, decide_eq_true_eq, hcmp, if_true]

theorem step_ble_fall {p : List Nat} {pc x y : Nat} {inp out stk : List Nat} {aux : Nat}
    (hb : p.get? pc = some 14) (hcmp : ¬ x ≤ y) :
    step ⟨p, inp, out, pc, y :: x :: stk, aux⟩ =
      .next ⟨p, inp, out, pc + 2, stk, aux⟩ := by
  simp only [step, hb, decodeOp, branchIf, decide_eq_true_eq, hcmp, if_false]

theorem step_branch_nil {p : List Nat} {pc b : Nat} {inp out : List Nat} {aux : Nat}
    (hb : p.get? pc = some b) (hbr : b = 6 ∨ b = 13 ∨ b = 14) :
    step ⟨p, inp, out, pc, [], aux⟩ = .error .underflow := by
  rcases hbr with h | h | h <;> subst h <;> simp only [step, hb, decodeOp, branchIf]

theorem step_branch_one {p : List Nat} {pc b x : Nat} {inp out : List Nat} {aux : Nat}
    (hb : p.get? pc = some b) (hbr : b = 6 ∨ b = 13 ∨ b = 14) :
    step ⟨p, inp, out, pc, [x], aux⟩ = .error .underflow := by
  rcases hbr with h | h | h <;> subst h <;> simp only [step, hb, decodeOp, branchIf]

theorem step_push {p : List Nat} {pc v : Nat} {inp out stk : List Nat} {aux : Nat}
    (hb : p.get? pc = some 8) (ht : p.get? (pc + 1) = some v) :
    step ⟨p, inp, out, pc, stk, aux⟩ = .next ⟨p, inp, out, pc + 2, v :: stk, aux⟩ := by
  simp only [step, hb, decodeOp, ht]

theorem step_jmp {p : List Nat} {pc t : Nat} {inp out stk : List Nat} {aux : Nat}
    (hb : p.get? pc = some 9) (ht : p.get? (pc + 1) = some t) :
    step ⟨p, inp, out, pc, stk, aux⟩ = .next ⟨p, inp, out, t, stk, aux⟩ := by
  simp only [step, hb, decodeOp, ht]

theorem step_beq {p : List Nat} {pc : Nat} {inp out stk : List Nat} {aux : Nat}
    (hb : p.get? pc = some 10) :
    step ⟨p, inp, out, pc, stk, aux⟩ = .error .todoUnimplemented := by
  simp only [step, hb, decodeOp]

theorem step_pusha {p : List Nat} {pc : Nat} {inp out stk : List Nat} {aux : Nat}
    (hb : p.get? pc = some 11) :
    step ⟨p, inp, out, pc, stk, aux⟩ = .next ⟨p, inp, out, pc + 1, aux :: stk, aux⟩ := by
  simp only [step, hb, decodeOp]

theorem step_popa {p : List Nat} {pc x : Nat} {inp out stk : List Nat} {aux : Nat}
    (hb : p.get? pc = some 12) :
    step ⟨p, inp, out, pc, x :: stk, aux⟩ = .next ⟨p, inp, out, pc + 1, stk, x⟩ := by
  simp only [step, hb, decodeOp]

theorem step_popa_nil {p : List Nat} {pc : Nat} {inp out : List Nat} {aux : Nat}
    (hb : p.get? pc = some 12) :
    step ⟨p, inp, out, pc, [], aux⟩ = .error .underflow := by
  simp only [step, hb, decodeOp]

theorem add32_small {a b : Nat} (h : a + b < 4294967296) : add32 a b = a + b := by
  unfold add32; omega

theorem sub32_small {a b : Nat} (hb : b ≤ a) (ha : a < 4294967296) :
    sub32 a b = a - b := by
  unfold sub32; omega

theorem isScalar_of_small {n : Nat} (h : n < 55296) : isScalar n = true := by
  unfold isScalar
  simp only [Bool.or_eq_true, Bool.and_eq_true, decide_eq_true_eq]
  omega

/-! ## Behaviour of the example program

`DECRYPTER` is a *progressive*-shift decoder: it keeps a running shift in
the auxiliary register, starting at 4 and advancing by 1 after every
character (wrapping from 25 back to 0), adds the current shift to each
input code point, and subtracts 26 whenever the sum passes `'z'` (122). -/

/-- The shift used for the next character: `aux + 1`, reset to 0 once it
would exceed 25 (the `Bgt`/`wrap` tail of the loop). -/
def nextShift (sh : Nat) : Nat := if 25 < sh + 1 then 0 else sh + 1

/-- The output character the loop body produces for input `c` under the
current shift `sh`. -/
def decodeChar (sh c : Nat) : Nat :=
  if c + sh ≤ 122 then c + sh else c + sh - 26

/-- The whole output of `DECRYPTER` on an input, starting from shift `sh`. -/
def decodeList (sh : Nat) : List Nat → List Nat
  | [] => []
  | c :: rest => decodeChar sh c :: decodeList (nextShift sh) rest

/-- A state of the assembled `DECRYPTER` bytecode. -/
abbrev mkS (pc : Nat) (stk : List Nat) (sh : Nat) (inp out : List Nat) : VmState :=
  ⟨decrypterBytes, inp, out, pc, stk, sh⟩

theorem run_ok_of_halt {s t : VmState} (h : step s = .halted t) :
    ∃ n, runLoop n s = .ok t.output := ⟨1, runLoop_halt h 0⟩

/-- The `Push 4; Popa` preamble: from the initial state to the loop head
with shift 4. -/
theorem reach_init (inp : List Nat) :
    Reaches (mkS 0 [] 0 inp []) (mkS 3 [] 4 inp []) := by
  refine reaches_trans (reaches_step (step_push rfl rfl)) ?_
  exact reaches_step (step_popa rfl)

/-- The loop head to the `Ble` test: read `c`, check it is nonzero, add
the current shift. -/
theorem reach_prefix (c sh : Nat) (stk inp out : List Nat)
    (hc1 : 97 ≤ c) (hc2 : c ≤ 122) (hsh : sh ≤ 25) :
    Reaches (mkS 3 stk sh (c :: inp) out)
      (mkS 13 (122 :: (c + sh) :: (c + sh) :: stk) sh inp out) := by
  have hne : c ≠ 0 := by omega
  have hadd : add32 c sh = c + sh := add32_small (by omega)
  refine reaches_trans (reaches_step (step_in_cons rfl)) ?_
  refine reaches_trans (reaches_step (step_dup rfl)) ?_
  refine reaches_trans (reaches_step (step_bne_taken rfl rfl hne)) ?_
  refine reaches_trans (reaches_step (step_pusha rfl)) ?_
  refine reaches_trans (reaches_step (step_add rfl)) ?_
  rw [hadd]
  refine reaches_trans (reaches_step (step_dup rfl)) ?_
  exact reaches_step (step_push rfl rfl)

/-- The `Ble out` test, the optional `- 26` wrap past `'z'`, and `Out`:
exactly `decodeChar sh c` is appended to the output. -/
theorem reach_mid (c sh : Nat) (stk inp out : List Nat)
    (hc1 : 97 ≤ c) (hc2 : c ≤ 122) (hsh : sh ≤ 25) :
    Reaches (mkS 13 (122 :: (c + sh) :: (c + sh) :: stk) sh inp out)
      (mkS 19 stk sh inp (out ++ [decodeChar sh c])) := by
  by_cases h : c + sh ≤ 122
  · have hd : decodeChar sh c = c + sh := by unfold decodeChar; rw [if_pos h]
    rw [hd]
    refine reaches_trans (reaches_step (step_ble_taken rfl rfl h)) ?_
    exact reaches_step (step_out_ok rfl (isScalar_of_small (by omega)))
  · have hd : decodeChar sh c = c + sh - 26 := by unfold decodeChar; rw [if_neg h]
    have hsub : sub32 (c + sh) 26 = c + sh - 26 := sub32_small (by omega) (by omega)
    rw [hd]
    refine reaches_trans (reaches_step (step_ble_fall rfl h)) ?_
    refine reaches_trans (reaches_step (step_push rfl rfl)) ?_
    refine reaches_trans (reaches_step (step_sub rfl)) ?_
    rw [hsub]
    exact reaches_step (step_out_ok rfl (isScalar_of_small (by omega)))

/-- The shift-advancing tail without wrap (`aux + 1 ≤ 25`). -/
theorem reach_tail_nowrap (sh : Nat) (stk inp out : List Nat) (h : sh + 1 ≤ 25) :
    Reaches (mkS 19 stk sh inp out) (mkS 3 stk (sh + 1) inp out) := by
  have hadd : add32 sh 1 = sh + 1 := add32_small (by omega)
  refine reaches_trans (reaches_step (step_pusha rfl)) ?_
  refine reaches_trans (reaches_step (step_push rfl rfl)) ?_
  refine reaches_trans (reaches_step (step_add rfl)) ?_
  rw [hadd]
  refine reaches_trans (reaches_step (step_dup rfl)) ?_
  refine reaches_trans (reaches_step (step_push rfl rfl)) ?_
  refine reaches_trans (reaches_step (step_bgt_fall rfl (by omega))) ?_
  refine reaches_trans (reaches_step (step_popa rfl)) ?_
  exact reaches_step (step_jmp rfl rfl)

/-- The shift-advancing tail with wrap (`aux + 1 > 25`): the shift resets
to 0 and the duplicated `aux + 1 = 26` stays behind on the stack. -/
theorem reach_tail_wrap (stk inp out : List Nat) :
    Reaches (mkS 19 stk 25 inp out) (mkS 3 (26 :: stk) 0 inp out) := by
  have hadd : add32 25 1 = 26 := add32_small (by omega)
  refine reaches_trans (reaches_step (step_pusha rfl)) ?_
  refine reaches_trans (reaches_step (step_push rfl rfl)) ?_
  refine reaches_trans (reaches_step (step_add rfl)) ?_
  rw [hadd]
  refine reaches_trans (reaches_step (step_dup rfl)) ?_
  refine reaches_trans (reaches_step (step_push rfl rfl)) ?_
  refine reaches_trans (reaches_step (step_bgt_taken rfl rfl (by omega))) ?_
  refine reaches_trans (reaches_step (step_push rfl rfl)) ?_
  refine reaches_trans (reaches_step (step_popa rfl)) ?_
  exact reaches_step (step_jmp rfl rfl)

/-- One full loop iteration: consume one input character, append its
decoded character, advance the shift; some stack residue may accumulate. -/
theorem reach_iter (c sh : Nat) (stk inp out : List Nat)
    (hc1 : 97 ≤ c) (hc2 : c ≤ 122) (hsh : sh ≤ 25) :
    ∃ stk2, Reaches (mkS 3 stk sh (c :: inp) out)
      (mkS 3 stk2 (nextShift sh) inp (out ++ [decodeChar sh c])) := by
  have h1 := reach_prefix c sh stk inp out hc1 hc2 hsh
  have h2 := reach_mid c sh stk inp out hc1 hc2 hsh
  by_cases hw : sh + 1 ≤ 25
  · refine ⟨stk, ?_⟩
    have hn : nextShift sh = sh + 1 := by unfold nextShift; rw [if_neg (by omega)]
    rw [hn]
    exact reaches_trans h1 (reaches_trans h2
      (reach_tail_nowrap sh stk inp (out ++ [decodeChar sh c]) hw))
  · have hsh25 : sh = 25 := by omega
    subst hsh25
    refine ⟨26 :: stk, ?_⟩
    have hn : nextShift 25 = 0 := by unfold nextShift; rw [if_pos (by omega)]
    rw [hn]
    exact reaches_trans h1 (reaches_trans h2
      (reach_tail_wrap stk inp (out ++ [decodeChar 25 c])))

/-- On exhausted input the loop reads the sentinel 0, `Dup`/`Bne` falls
through, and `Exit` halts with the accumulated output. -/
theorem loop_nil (stk out : List Nat) (sh : Nat) :
    ∃ n, runLoop n (mkS 3 stk sh [] out) = .ok out := by
  have R : Reaches (mkS 3 stk sh [] out) (mkS 7 (0 :: stk) sh [] out) := by
    refine reaches_trans (reaches_step (step_in_nil rfl)) ?_
    refine reaches_trans (reaches_step (step_dup rfl)) ?_
    exact reaches_step (step_bne_fall rfl)
  exact R out (run_ok_of_halt (step_exit (show decrypterBytes.get? 7 = some 7 from rfl)))

/-- The loop invariant: from the loop head with shift `sh ≤ 25` and any
stack, a lowercase input produces exactly `decodeList sh` of it. -/
theorem decrypter_loop :
    ∀ inp : List Nat, (∀ c ∈ inp, 97 ≤ c ∧ c ≤ 122) →
      ∀ sh, sh ≤ 25 → ∀ stk out,
        ∃ n, runLoop n (mkS 3 stk sh inp out) = .ok (out ++ decodeList sh inp) := by
  intro inp
  induction inp with
  | nil =>
    intro _ sh _ stk out
    simpa [decodeList] using loop_nil stk out sh
  | cons c rest ih =>
    intro hinp sh hsh stk out
    obtain ⟨hc1, hc2⟩ := hinp c (by simp)
    obtain ⟨stk2, R⟩ := reach_iter c sh stk rest out hc1 hc2 hsh
    have hsh2 : nextShift sh ≤ 25 := by unfold nextShift; split <;> omega
    obtain ⟨n, hn⟩ :=
      ih (fun d hd => hinp d (by simp [hd])) (nextShift sh) hsh2 stk2
        (out ++ [decodeChar sh c])
    refine R _ ⟨n, ?_⟩
    rw [hn]
    simp [decodeList]

/-- Full behaviour of the assembled example program on lowercase input. -/
theorem decrypter_run (inp : List Nat) (hinp : ∀ c ∈ inp, 97 ≤ c ∧ c ≤ 122) :
    ∃ n, run decrypterBytes inp n = .ok (decodeList 4 inp) := by
  obtain ⟨n, hn⟩ := decrypter_loop inp hinp 4 (by omega) [] []
  exact reach_init inp _ ⟨n, by simpa using hn⟩

/-! ## Assembler metatheory

A direct recursive characterisation of the single emission pass, proved
equal to the `foldl` that models the Rust `for` loop, and lemmas about the
relocation pass. -/

/-- The bytes one instruction contributes. -/
def insnBytes (i : Insn) : List Nat :=
  match i.operand with
  | .none => [opToByte i.opcode]
  | .target _ => [opToByte i.opcode, 0]
  | .value v => [opToByte i.opcode, v % 256]

/-- All bytes the emission pass produces. -/
def codeOf : List Insn → List Nat
  | [] => []
  | i :: rest => insnBytes i ++ codeOf rest

/-- Total encoded size: the sum of the instructions' 1- or 2-byte sizes. -/
def sizeSum : List Insn → Nat
  | [] => 0
  | i :: rest => insnSize i + sizeSum rest

/-- The label table the emission pass records when it starts at byte
offset `pos` (most recent insertion first, so lookups see the *last*
definition, as with `HashMap::insert`). -/
def labelsOf : List Insn → Nat → List (String × Nat)
  | [], _ => []
  | i :: rest, pos =>
    labelsOf rest (pos + insnSize i) ++
      (match i.label with
        | some l => [(l, pos)]
        | none => [])

/-- The relocations the emission pass records when it starts at byte
offset `pos`: for each target operand, the label and the offset of its
operand byte. -/
def relocsOf : List Insn → Nat → List (String × Nat)
  | [], _ => []
  | i :: rest, pos =>
    (match i.operand with
      | .target l => [(l, pos + 1)]
      | _ => []) ++
      relocsOf rest (pos + insnSize i)

theorem insnBytes_length (i : Insn) : (insnBytes i).length = insnSize i := by
  cases i with
  | mk lbl opc oper => cases oper <;> simp [insnBytes, insnSize]

theorem codeOf_length (src : List Insn) : (codeOf src).length = sizeSum src := by
  induction src with
  | nil => rfl
  | cons i rest ih => simp [codeOf, sizeSum, insnBytes_length, ih]

/-- The `for` loop of `assemble` computes exactly the recursive
characterisation. -/
theorem foldl_emit (src : List Insn) : ∀ st : AsmState,
    src.foldl emitInsn st =
      ⟨labelsOf src st.code.length ++ st.labels,
       st.relocs ++ relocsOf src st.code.length,
       st.code ++ codeOf src⟩ := by
  induction src with
  | nil => intro st; simp [labelsOf, relocsOf, codeOf]
  | cons i rest ih =>
    intro st
    rw [List.foldl_cons, ih]
    cases i with
    | mk lbl opc oper =>
      cases oper <;> cases lbl <;>
        simp [emitInsn, labelsOf, relocsOf, codeOf, insnBytes, insnSize]

theorem assemble_eq (src : List Insn) :
    assemble src = resolve (labelsOf src 0) (relocsOf src 0) (codeOf src) := by
  rw [assemble, foldl_emit]
  simp

theorem lookupLabel_none_iff (ls : List (String × Nat)) (l : String) :
    lookupLabel ls l = none ↔ ∀ q ∈ ls, q.1 ≠ l := by
  simp [lookupLabel, List.find?_eq_none]

theorem resolve_length (labels : List (String × Nat)) :
    ∀ rs code code', resolve labels rs code = some code' →
      code'.length = code.length := by
  intro rs
  induction rs with
  | nil => intro code code' h; simp only [resolve] at h; cases h; rfl
  | cons q rest ih =>
    intro code code' h
    obtain ⟨l, off⟩ := q
    simp only [resolve] at h
    cases hl : lookupLabel labels l with
    | none => rw [hl] at h; exact absurd h (by simp)
    | some v =>
      rw [hl] at h
      have := ih _ _ h
      simpa using this

theorem resolve_some (labels : List (String × Nat)) :
    ∀ rs code, (∀ q ∈ rs, lookupLabel labels q.1 ≠ none) →
      ∃ code', resolve labels rs code = some code' := by
  intro rs
  induction rs with
  | nil => intro code _; exact ⟨code, rfl⟩
  | cons q rest ih =>
    intro code h
    obtain ⟨l, off⟩ := q
    cases hl : lookupLabel labels l with
    | none => exact absurd hl (h (l, off) (by simp))
    | some v =>
      obtain ⟨code', hc⟩ := ih (code.set off (v % 256)) (fun q hq => h q (by simp [hq]))
      exact ⟨code', by simp only [resolve, hl]; exact hc⟩

theorem resolve_none (labels : List (String × Nat)) :
    ∀ rs code, (∃ q ∈ rs, lookupLabel labels q.1 = none) →
      resolve labels rs code = none := by
  intro rs
  induction rs with
  | nil => intro code h; simp at h
  | cons q rest ih =>
    intro code h
    obtain ⟨l, off⟩ := q
    cases hl : lookupLabel labels l with
    | none => simp only [resolve, hl]
    | some v =>
      simp only [resolve, hl]
      obtain ⟨q', hq', hq'n⟩ := h
      rcases List.mem_cons.mp hq' with h0 | h0
      · subst h0; simp only at hq'n; rw [hl] at hq'n; exact absurd hq'n (by simp)
      · exact ih _ ⟨q', h0, hq'n⟩

theorem resolve_get_untouched (labels : List (String × Nat)) :
    ∀ rs code code' j, resolve labels rs code = some code' →
      (∀ q ∈ rs, q.2 ≠ j) → code'.get? j = code.get? j := by
  intro rs
  induction rs with
  | nil => intro code code' j h _; simp only [resolve] at h; rw [← Option.some_inj.mp h]
  | cons q rest ih =>
    intro code code' j h hne
    obtain ⟨l, off⟩ := q
    simp only [resolve] at h
    cases hl : lookupLabel labels l with
    | none => rw [hl] at h; exact absurd h (by simp)
    | some v =>
      rw [hl] at h
      have hoff : off ≠ j := hne (l, off) (by simp)
      rw [ih _ _ _ h (fun q hq => hne q (by simp [hq]))]
      exact List.get?_set_ne _ _ hoff

theorem resolve_get (labels : List (String × Nat)) :
    ∀ rs code code', resolve labels rs code = some code' →
      List.Pairwise (fun a b : String × Nat => a.2 < b.2) rs →
      (∀ q ∈ rs, q.2 < code.length) →
      ∀ q ∈ rs, ∃ v, lookupLabel labels q.1 = some v ∧
        code'.get? q.2 = some (v % 256) := by
  intro rs
  induction rs with
  | nil => intro code code' _ _ _ q hq; simp at hq
  | cons q0 rest ih =>
    intro code code' h hpw hlt q hq
    obtain ⟨l, off⟩ := q0
    simp only [resolve] at h
    cases hl : lookupLabel labels l with
    | none => rw [hl] at h; exact absurd h (by simp)
    | some v =>
      rw [hl] at h
      rw [List.pairwise_cons] at hpw
      rcases List.mem_cons.mp hq with h0 | h0
      · subst h0
        refine ⟨v, hl, ?_⟩
        rw [resolve_get_untouched labels rest _ _ off h
          (fun q' hq' => Nat.ne_of_gt (hpw.1 q' hq'))]
        rw [List.get?_set_eq_of_lt]
        exact hlt (l, off) (by simp)
      · have hlen : (code.set off (v % 256)).length = code.length := by simp
        refine ih _ _ h hpw.2 (fun q' hq' => ?_) q h0
        rw [hlen]; exact hlt q' (by simp [hq'])

theorem mem_labelsOf : ∀ (src : List Insn) (pos : Nat) (q : String × Nat),
    q ∈ labelsOf src pos → q.1 ∈ definedLabels src := by
  intro src
  induction src with
  | nil => intro pos q hq; simp [labelsOf] at hq
  | cons i rest ih =>
    intro pos q hq
    simp only [labelsOf, List.mem_append] at hq
    rcases hq with h | h
    · have := ih _ _ h
      simp only [definedLabels, List.filterMap_cons]
      cases hi : i.label <;> simp [definedLabels] at this ⊢ <;> simp [this]
    · cases hi : i.label with
      | none => rw [hi] at h; simp at h
      | some l =>
        rw [hi] at h
        simp only [List.mem_singleton] at h
        subst h
        simp [definedLabels, List.filterMap_cons, hi]

theorem defined_mem_labelsOf : ∀ (src : List Insn) (pos : Nat) (l : String),
    l ∈ definedLabels src → ∃ off, (l, off) ∈ labelsOf src pos := by
  intro src
  induction src with
  | nil => intro pos l hl; simp [definedLabels] at hl
  | cons i rest ih =>
    intro pos l hl
    simp only [definedLabels, List.filterMap_cons] at hl
    cases hi : i.label with
    | none =>
      rw [hi] at hl
      obtain ⟨off, hoff⟩ := ih (pos + insnSize i) l hl
      exact ⟨off, by simp [labelsOf, hoff]⟩
    | some l' =>
      rw [hi] at hl
      simp only [List.mem_cons] at hl
      rcases hl with h | h
      · exact ⟨pos, by simp [labelsOf, hi, h]⟩
      · obtain ⟨off, hoff⟩ := ih (pos + insnSize i) l h
        exact ⟨off, by simp [labelsOf, hoff]⟩

theorem mem_relocsOf : ∀ (src : List Insn) (pos : Nat) (q : String × Nat),
    q ∈ relocsOf src pos → q.1 ∈ referencedLabels src := by
  intro src
  induction src with
  | nil => intro pos q hq; simp [relocsOf] at hq
  | cons i rest ih =>
    intro pos q hq
    simp only [relocsOf, List.mem_append] at hq
    rcases hq with h | h
    · cases ho : i.operand with
      | target l =>
        rw [ho] at h
        simp only [List.mem_singleton] at h
        subst h
        simp [referencedLabels, List.filterMap_cons, ho]
      | none => rw [ho] at h; simp at h
      | value v => rw [ho] at h; simp at h
    · have := ih _ _ h
      simp only [referencedLabels, List.filterMap_cons]
      cases ho : i.operand <;> simp [referencedLabels] at this ⊢ <;> simp [this]

theorem referenced_mem_relocsOf : ∀ (src : List Insn) (pos : Nat) (l : String),
    l ∈ referencedLabels src → ∃ off, (l, off) ∈ relocsOf src pos := by
  intro src
  induction src with
  | nil => intro pos l hl; simp [referencedLabels] at hl
  | cons i rest ih =>
    intro pos l hl
    simp only [referencedLabels, List.filterMap_cons] at hl
    cases ho : i.operand with
    | target l' =>
      rw [ho] at hl
      simp only [List.mem_cons] at hl
      rcases hl with h | h
      · exact ⟨pos + 1, by simp [relocsOf, ho, h]⟩
      · obtain ⟨off, hoff⟩ := ih (pos + insnSize i) l h
        exact ⟨off, by simp [relocsOf, hoff]⟩
    | none =>
      rw [ho] at hl
      obtain ⟨off, hoff⟩ := ih (pos + insnSize i) l hl
      exact ⟨off, by simp [relocsOf, hoff]⟩
    | value v =>
      rw [ho] at hl
      obtain ⟨off, hoff⟩ := ih (pos + insnSize i) l hl
      exact ⟨off, by simp [relocsOf, hoff]⟩

theorem relocsOf_bounds : ∀ (src : List Insn) (pos : Nat) (q : String × Nat),
    q ∈ relocsOf src pos → pos < q.2 ∧ q.2 < pos + sizeSum src := by
  intro src
  induction src with
  | nil => intro pos q hq; simp [relocsOf] at hq
  | cons i rest ih =>
    intro pos q hq
    have hsz : 1 ≤ insnSize i := by
      cases i with
      | mk lbl opc oper => cases oper <;> simp [insnSize]
    simp only [relocsOf, List.mem_append] at hq
    rcases hq with h | h
    · cases ho : i.operand with
      | target l =>
        rw [ho] at h
        simp only [List.mem_singleton] at h
        subst h
        have h2 : insnSize i = 2 := by
          cases i with
          | mk lbl opc oper => cases oper <;> simp_all [insnSize]
        simp only [sizeSum]
        omega
      | none => rw [ho] at h; simp at h
      | value v => rw [ho] at h; simp at h
    · have hb := ih _ _ h
      simp only [sizeSum]
      omega

theorem relocsOf_pairwise : ∀ (src : List Insn) (pos : Nat),
    List.Pairwise (fun a b : String × Nat => a.2 < b.2) (relocsOf src pos) := by
  intro src
  induction src with
  | nil => intro pos; simp [relocsOf]
  | cons i rest ih =>
    intro pos
    simp only [relocsOf]
    cases ho : i.operand with
    | target l =>
      simp only [List.singleton_append, List.pairwise_cons]
      refine ⟨fun q hq => ?_, ih _⟩
      have hb := (relocsOf_bounds rest (pos + insnSize i) q hq).1
      have h2 : insnSize i = 2 := by
        cases i with
        | mk lbl opc oper => cases oper <;> simp_all [insnSize]
      omega
    | none => simpa using ih _
    | value v => simpa using ih _

/-- Master theorem for a well-referenced program: assembly succeeds, the
output has the summed encoded size, and every target-operand byte holds
the looked-up label offset truncated `as u8` (mod 256). -/
theorem assemble_total (src : List Insn)
    (hdef : ∀ l ∈ referencedLabels src, l ∈ definedLabels src) :
    ∃ bc, assemble src = some bc ∧ bc.length = sizeSum src ∧
      ∀ q ∈ relocsOf src 0, ∃ v, lookupLabel (labelsOf src 0) q.1 = some v ∧
        bc.get? q.2 = some (v % 256) := by
  rw [assemble_eq]
  have hlook : ∀ q ∈ relocsOf src 0, lookupLabel (labelsOf src 0) q.1 ≠ none := by
    intro q hq hn
    obtain ⟨off, hoff⟩ :=
      defined_mem_labelsOf src 0 q.1 (hdef q.1 (mem_relocsOf src 0 q hq))
    exact (lookupLabel_none_iff _ _).mp hn (q.1, off) hoff rfl
  obtain ⟨bc, hbc⟩ := resolve_some _ _ (codeOf src) hlook
  refine ⟨bc, hbc, ?_, ?_⟩
  · rw [resolve_length _ _ _ _ hbc, codeOf_length]
  · intro q hq
    refine resolve_get _ _ _ _ hbc (relocsOf_pairwise src 0) ?_ q hq
    intro q' hq'
    have hb := (relocsOf_bounds src 0 q' hq').2
    rw [codeOf_length]
    omega

/-- A program referencing an undefined label fails to assemble, producing
no bytecode at all. -/
theorem assemble_fails (src : List Insn) (l : String)
    (href : l ∈ referencedLabels src) (hund : l ∉ definedLabels src) :
    assemble src = none := by
  rw [assemble_eq]
  obtain ⟨off, hoff⟩ := referenced_mem_relocsOf src 0 l href
  refine resolve_none _ _ _ ⟨(l, off), hoff, ?_⟩
  rw [lookupLabel_none_iff]
  intro q hq hql
  have hq1 : q.1 = l := hql
  exact hund (hq1 ▸ mem_labelsOf src 0 q hq)

/-- A program whose code exceeds 256 bytes with a label defined past byte
offset 255: 128 two-byte `Push 0` instructions (256 bytes), a `Jmp` to
`"l"` (operand byte at offset 257), and the `Exit` defining `"l"` at
offset 258. -/
def bigProg : List Insn :=
  List.replicate 128 ((Insn.new .Push).set_value 0) ++
    [(Insn.new .Jmp).set_target "l", (Insn.new .Exit).set_label "l"]

/-! ## The claims -/

/-- C1, counterexample: `DECRYPTER` is not a fixed shift-by-4 Caesar
decoder.  The input `[102]` (`"f"`, i.e. `"b"` shifted forward by 4) is
claimed to decode back to `[98]` (`"b"`), but the assembled program
outputs `[106]` (`"j"`): the program *adds* the shift instead of undoing
it. -/
theorem c1_counterexample :
    assemble DECRYPTER = some decrypterBytes ∧
      run decrypterBytes [102] 30 = .ok [106] ∧
      RunResult.ok [106] ≠ RunResult.ok [98] := by
  refine ⟨by decide, by decide, by decide⟩

/-- C1 (amended): `DECRYPTER` assembles to `decrypterBytes`, and on any
input of lowercase ASCII letters it terminates (reaching `Exit` exactly
after `In` yields the end-of-input sentinel 0 and the `Dup`/`Bne` test
falls through) with output `decodeList 4 input`: each character is shifted
*forward* by a per-character shift that starts at 4 and increments by 1
modulo 26, wrapping past `'z'` back into the lowercase range.  It thus
recovers a text whose cipher was produced by shifting the i-th original
character backward by `(4 + i) % 26`. -/
theorem c1_progressive_decoder (inp : List Nat)
    (hinp : ∀ c ∈ inp, 97 ≤ c ∧ c ≤ 122) :
    assemble DECRYPTER = some decrypterBytes ∧
      ∃ n, run decrypterBytes inp n = .ok (decodeList 4 inp) :=
  ⟨assemble_DECRYPTER, decrypter_run inp hinp⟩

/-- C1 witness: the amended theorem applied to the concrete lowercase
input `"fg"` (`[102, 103]`). -/
theorem c1_progressive_decoder_witness :
    (∀ c ∈ [102, 103], 97 ≤ c ∧ (c : Nat) ≤ 122) ∧
      (assemble DECRYPTER = some decrypterBytes ∧
        ∃ n, run decrypterBytes [102, 103] n = .ok (decodeList 4 [102, 103])) :=
  ⟨by decide, c1_progressive_decoder [102, 103] (by decide)⟩

set_option maxRecDepth 40000 in
/-- C2, counterexample: `bigProg` has exactly one definition of its only
referenced label `"l"`, assembly succeeds, the recorded offset of `"l"`
is 258, but the byte written for the target operand is `2 = 258 % 256`,
not 258. -/
theorem c2_counterexample :
    (definedLabels bigProg).count "l" = 1 ∧
      referencedLabels bigProg = ["l"] ∧
      lookupLabel (labelsOf bigProg 0) "l" = some 258 ∧
      (assemble bigProg).bind (fun bc => bc.get? 257) = some 2 ∧
      (2 : Nat) ≠ 258 := by
  refine ⟨by decide, by decide, by decide, by decide, by decide⟩

/-- C2 (amended): for every symbolic program in which every referenced
label has exactly one definition, `assemble` succeeds, the byte sequence's
length is the sum of the instructions' encoded sizes (1 or 2 bytes), and
every byte written for a target operand equals the recorded byte offset of
the label's definition *reduced mod 256* (hence equal to the offset itself
whenever that offset is below 256). -/
theorem c2_assemble_total (src : List Insn)
    (hdef : ∀ l ∈ referencedLabels src, (definedLabels src).count l = 1) :
    ∃ bc, assemble src = some bc ∧ bc.length = sizeSum src ∧
      ∀ q ∈ relocsOf src 0, ∃ v, lookupLabel (labelsOf src 0) q.1 = some v ∧
        bc.get? q.2 = some (v % 256) :=
  assemble_total src fun l hl => List.count_pos_iff.mp (by rw [hdef l hl]; omega)

/-- C2 witness: the amended theorem applied to a concrete two-instruction
program with one (well-defined) label reference. -/
theorem c2_assemble_total_witness :
    (∀ l ∈ referencedLabels [(Insn.new .Jmp).set_target "a",
        (Insn.new .Exit).set_label "a"],
      (definedLabels [(Insn.new .Jmp).set_target "a",
        (Insn.new .Exit).set_label "a"]).count l = 1) ∧
      ∃ bc, assemble [(Insn.new .Jmp).set_target "a",
          (Insn.new .Exit).set_label "a"] = some bc ∧
        bc.length = sizeSum [(Insn.new .Jmp).set_target "a",
          (Insn.new .Exit).set_label "a"] ∧
        ∀ q ∈ relocsOf [(Insn.new .Jmp).set_target "a",
            (Insn.new .Exit).set_label "a"] 0,
          ∃ v, lookupLabel (labelsOf [(Insn.new .Jmp).set_target "a",
              (Insn.new .Exit).set_label "a"] 0) q.1 = some v ∧
            bc.get? q.2 = some (v % 256) :=
  ⟨by decide, c2_assemble_total _ (by decide)⟩

/-- C3, counterexample: `Bne` does not consume two stack words.  In the
program `Push 1; Bne 5; Exit@5` the stack holds exactly one word when
`Bne` executes; were two words required this run would fail with a stack
underflow, but it succeeds. -/
theorem c3_counterexample :
    run [8, 1, 5, 5, 0, 7] [] 10 = .ok [] ∧
      run [8, 1, 5, 5, 0, 7] [] 10 ≠ .err .underflow := by
  refine ⟨by decide, by decide⟩

/-- C3 (amended): `Blt`, `Bgt` and `Ble` consume exactly two stack words
and always consume the operand byte (taken: `pc := operand`; fall-through:
`pc + 2`).  `Bne` consumes exactly *one* stack word, with the same operand
consumption.  `Beq` branches not at all: its dispatch arm is the
unimplemented `todo!()`. -/
theorem c3_branch_semantics :
    (∀ (p : List Nat) (pc t x y : Nat) (inp out stk : List Nat) (aux : Nat),
      p.get? pc = some 6 → p.get? (pc + 1) = some t →
        step ⟨p, inp, out, pc, y :: x :: stk, aux⟩ =
          if x < y then .next ⟨p, inp, out, t, stk, aux⟩
          else .next ⟨p, inp, out, pc + 2, stk, aux⟩) ∧
    (∀ (p : List Nat) (pc t x y : Nat) (inp out stk : List Nat) (aux : Nat),
      p.get? pc = some 13 → p.get? (pc + 1) = some t →
        step ⟨p, inp, out, pc, y :: x :: stk, aux⟩ =
          if x > y then .next ⟨p, inp, out, t, stk, aux⟩
          else .next ⟨p, inp, out, pc + 2, stk, aux⟩) ∧
    (∀ (p : List Nat) (pc t x y : Nat) (inp out stk : List Nat) (aux : Nat),
      p.get? pc = some 14 → p.get? (pc + 1) = some t →
        step ⟨p, inp, out, pc, y :: x :: stk, aux⟩ =
          if x ≤ y then .next ⟨p, inp, out, t, stk, aux⟩
          else .next ⟨p, inp, out, pc + 2, stk, aux⟩) ∧
    (∀ (p : List Nat) (pc t x : Nat) (inp out stk : List Nat) (aux : Nat),
      p.get? pc = some 5 → p.get? (pc + 1) = some t →
        step ⟨p, inp, out, pc, x :: stk, aux⟩ =
          if x ≠ 0 then .next ⟨p, inp, out, t, stk, aux⟩
          else .next ⟨p, inp, out, pc + 2, stk, aux⟩) ∧
    (∀ (p : List Nat) (pc : Nat) (inp out stk : List Nat) (aux : Nat),
      p.get? pc = some 10 →
        step ⟨p, inp, out, pc, stk, aux⟩ = .error .todoUnimplemented) := by
  refine ⟨?_, ?_, ?_, ?_, fun p pc inp out stk aux hb => step_beq hb⟩
  · intro p pc t x y inp out stk aux hb ht
    by_cases h : x < y
    · rw [if_pos h]; exact step_blt_taken hb ht h
    · rw [if_neg h]; exact step_blt_fall hb h
  · intro p pc t x y inp out stk aux hb ht
    by_cases h : x > y
    · rw [if_pos h]; exact step_bgt_taken hb ht h
    · rw [if_neg h]; exact step_bgt_fall hb h
  · intro p pc t x y inp out stk aux hb ht
    by_cases h : x ≤ y
    · rw [if_pos h]; exact step_ble_taken hb ht h
    · rw [if_neg h]; exact step_ble_fall hb h
  · intro p pc t x inp out stk aux hb ht
    by_cases h : x ≠ 0
    · rw [if_pos h]; exact step_bne_taken hb ht h
    · rw [if_neg h]
      have h0 : x = 0 := by omega
      subst h0
      exact step_bne_fall hb

/-- C3 witness: the amended theorem instantiated at a concrete taken `Blt`
(`3 < 5` branches to 3) and a concrete `Bne` with a single stack word. -/
theorem c3_branch_semantics_witness :
    step ⟨[6, 3, 0, 7], [], [], 0, [5, 3], 0⟩ =
        .next ⟨[6, 3, 0, 7], [], [], 3, [], 0⟩ ∧
      step ⟨[5, 3, 0, 7], [], [], 0, [1], 0⟩ =
        .next ⟨[5, 3, 0, 7], [], [], 3, [], 0⟩ := by
  constructor
  · have h := c3_branch_semantics.1 [6, 3, 0, 7] 0 3 3 5 [] [] [] 0 rfl rfl
    rw [h, if_pos (by omega)]
  · have h := c3_branch_semantics.2.2.2.1 [5, 3, 0, 7] 0 3 1 [] [] [] 0 rfl rfl
    rw [h, if_pos (by omega)]

/-- C4: the `Beq` opcode's documented pop-pop-compare-branch semantics are
not implemented: the interpreter's dispatch `match` has no `Beq` arm, so
executing opcode byte 10 reaches `_ => todo!()` and panics, whatever the
stack holds.  Concretely, `Push 1; Push 1; Beq 6; Exit@6` should (per the
opcode's own documentation) pop the two equal words and jump to `Exit`,
terminating with empty output, but instead dies unimplemented. -/
theorem c4_beq_unimplemented :
    (∀ (p : List Nat) (pc : Nat) (inp out stk : List Nat) (aux : Nat),
      p.get? pc = some 10 →
        step ⟨p, inp, out, pc, stk, aux⟩ = .error .todoUnimplemented) ∧
      run [8, 1, 8, 1, 10, 6, 7] [] 10 = .err .todoUnimplemented := by
  refine ⟨fun p pc inp out stk aux hb => step_beq hb, by decide⟩

/-- C4 witness: the general part applied at the concrete failing
program. -/
theorem c4_beq_unimplemented_witness :
    step ⟨[8, 1, 8, 1, 10, 6, 7], [], [], 4, [1, 1], 0⟩ =
      .error .todoUnimplemented :=
  c4_beq_unimplemented.1 [8, 1, 8, 1, 10, 6, 7] 4 [] [] [1, 1] 0 rfl

/-- C5: decoding fails exactly outside `0..=14`; a program whose first
opcode byte is `b ≥ 15` fails with an invalid-opcode decode error before
producing any output (the error result carries no output). -/
theorem c5_invalid_opcode (b : Nat) (hb : 15 ≤ b) :
    decodeOp b = none ∧
      ∀ (rest inp : List Nat) (n : Nat),
        run (b :: rest) inp (n + 1) = .err (.invalidOpcode b) := by
  obtain ⟨k, rfl⟩ : ∃ k, b = k + 15 := ⟨b - 15, by omega⟩
  have hd : decodeOp (k + 15) = none := rfl
  exact ⟨hd, fun rest inp n => runLoop_err (step_invalid (show ((k + 15) :: rest).get? 0 = some (k + 15) from rfl) hd) n⟩

/-- C5 witness: opcode byte 15 as the program's first byte. -/
theorem c5_invalid_opcode_witness :
    15 ≤ 15 ∧
      (decodeOp 15 = none ∧
        ∀ (rest inp : List Nat) (n : Nat),
          run (15 :: rest) inp (n + 1) = .err (.invalidOpcode 15)) :=
  ⟨by omega, c5_invalid_opcode 15 (by omega)⟩

/-- C6: every *implemented* instruction that pops (`Out`, `Dup`, `Add`,
`Sub`, `Bne`, `Blt`, `Popa`, `Bgt`, `Ble`) fails with a fatal
stack-underflow error when the stack holds fewer words than it needs, and
`Dup; Exit` fails on every input with no output.  The claim's "every
branch" also covers `Beq`, for which the underflow error is unreachable:
its dispatch arm is `todo!()`, which panics before touching the stack
(the final conjunct). -/
theorem c6_stack_underflow :
    (∀ (p : List Nat) (pc : Nat) (inp out : List Nat) (aux b : Nat),
      p.get? pc = some b →
      (b = 1 ∨ b = 2 ∨ b = 3 ∨ b = 4 ∨ b = 5 ∨ b = 6 ∨ b = 12 ∨ b = 13 ∨ b = 14) →
        step ⟨p, inp, out, pc, [], aux⟩ = .error .underflow) ∧
    (∀ (p : List Nat) (pc : Nat) (inp out : List Nat) (aux x b : Nat),
      p.get? pc = some b → (b = 3 ∨ b = 4 ∨ b = 6 ∨ b = 13 ∨ b = 14) →
        step ⟨p, inp, out, pc, [x], aux⟩ = .error .underflow) ∧
    (∀ (inp : List Nat) (n : Nat), run [2, 7] inp (n + 1) = .err .underflow) ∧
      run [10, 3] [] 3 = .err .todoUnimplemented := by
  refine ⟨?_, ?_, fun inp n => runLoop_err (step_dup_nil (show ([2, 7] : List Nat).get? 0 = some 2 from rfl)) n, by decide⟩
  · intro p pc inp out aux b hb hbr
    rcases hbr with h | h | h | h | h | h | h | h | h <;> subst h
    · exact step_out_nil hb
    · exact step_dup_nil hb
    · exact step_add_nil hb
    · exact step_sub_nil hb
    · exact step_bne_nil hb
    · exact step_branch_nil hb (by omega)
    · exact step_popa_nil hb
    · exact step_branch_nil hb (by omega)
    · exact step_branch_nil hb (by omega)
  · intro p pc inp out aux x b hb hbr
    rcases hbr with h | h | h | h | h <;> subst h
    · exact step_add_one hb
    · exact step_sub_one hb
    · exact step_branch_one hb (by omega)
    · exact step_branch_one hb (by omega)
    · exact step_branch_one hb (by omega)

/-- C6 witness: the first part applied to `Dup` (byte 2) at the front of
the concrete program `Dup; Exit` with the empty stack. -/
theorem c6_stack_underflow_witness :
    step ⟨[2, 7], [], [], 0, [], 0⟩ = .error .underflow :=
  c6_stack_underflow.1 [2, 7] 0 [] [] 0 2 rfl (by omega)

/-- C7: `In` at the end of input pushes the sentinel 0 (no error); with
input remaining it pushes the next character's code point and advances the
input cursor by one.  Both advance `pc` by 1. -/
theorem c7_in_sentinel (p : List Nat) (pc : Nat) (out stk : List Nat) (aux : Nat)
    (hb : p.get? pc = some 0) :
    step ⟨p, [], out, pc, stk, aux⟩ = .next ⟨p, [], out, pc + 1, 0 :: stk, aux⟩ ∧
      ∀ (c : Nat) (rest : List Nat),
        step ⟨p, c :: rest, out, pc, stk, aux⟩ =
          .next ⟨p, rest, out, pc + 1, c :: stk, aux⟩ :=
  ⟨step_in_nil hb, fun _ _ => step_in_cons hb⟩

/-- C7 witness: the theorem applied to the concrete program `In; Exit`
(and, through its second part, the one-character input `[104]`). -/
theorem c7_in_sentinel_witness :
    step ⟨[0, 7], [], [], 0, [], 0⟩ = .next ⟨[0, 7], [], [], 1, [0], 0⟩ ∧
      step ⟨[0, 7], [104], [], 0, [], 0⟩ = .next ⟨[0, 7], [], [], 1, [104], 0⟩ :=
  ⟨(c7_in_sentinel [0, 7] 0 [] [] 0 rfl).1,
    (c7_in_sentinel [0, 7] 0 [] [] 0 rfl).2 104 []⟩

/-- C8: `Out` pops the top stack word; a popped value that is not a
Unicode scalar value is a fatal invalid-code-point error, otherwise the
character is appended to the output and execution continues at
`pc + 1`. -/
theorem c8_out_codepoint (p : List Nat) (pc x : Nat) (inp out stk : List Nat)
    (aux : Nat) (hb : p.get? pc = some 1) :
    (isScalar x = false →
      step ⟨p, inp, out, pc, x :: stk, aux⟩ = .error .badCodePoint) ∧
      (isScalar x = true →
        step ⟨p, inp, out, pc, x :: stk, aux⟩ =
          .next ⟨p, inp, out ++ [x], pc + 1, stk, aux⟩) :=
  ⟨fun hx => step_out_bad hb hx, fun hx => step_out_ok hb hx⟩

/-- C8 witness: the theorem applied at opcode `Out` with the valid code
point 97 and (separately) the surrogate 55296. -/
theorem c8_out_codepoint_witness :
    step ⟨[1, 7], [], [], 0, [97], 0⟩ = .next ⟨[1, 7], [], [97], 1, [], 0⟩ ∧
      step ⟨[1, 7], [], [], 0, [55296], 0⟩ = .error .badCodePoint :=
  ⟨(c8_out_codepoint [1, 7] 0 97 [] [] [] 0 rfl).2 (by decide),
    (c8_out_codepoint [1, 7] 0 55296 [] [] [] 0 rfl).1 (by decide)⟩

/-- C9: a symbolic program with a target operand whose label has no
definition anywhere fails to assemble — `assemble` returns nothing, so no
partial bytecode is produced. -/
theorem c9_undefined_label (src : List Insn) (l : String)
    (href : l ∈ referencedLabels src) (hund : l ∉ definedLabels src) :
    assemble src = none :=
  assemble_fails src l href hund

/-- C9 witness: the single-instruction program `Jmp missing`. -/
theorem c9_undefined_label_witness :
    "missing" ∈ referencedLabels [(Insn.new .Jmp).set_target "missing"] ∧
      "missing" ∉ definedLabels [(Insn.new .Jmp).set_target "missing"] ∧
      assemble [(Insn.new .Jmp).set_target "missing"] = none :=
  ⟨by decide, by decide,
    c9_undefined_label [(Insn.new .Jmp).set_target "missing"] "missing"
      (by decide) (by decide)⟩

set_option maxRecDepth 40000 in
/-- C10: `assemble` silently truncates mod 256.  Any immediate operand is
encoded `as u8` (`v % 256`), and the operand byte of `bigProg`'s `Jmp`,
whose label is recorded at offset 258, is written as `258 % 256 = 2`. -/
theorem c10_truncation :
    (∀ v : Nat, assemble [(Insn.new .Push).set_value v] = some [8, v % 256]) ∧
      lookupLabel (labelsOf bigProg 0) "l" = some 258 ∧
      (assemble bigProg).bind (fun bc => bc.get? 257) = some (258 % 256) := by
  refine ⟨fun v => rfl, by decide, by decide⟩

end Enaa
